import Mathlib

/-!
Verification of the Krutidev/Unicode transliteration engine and the
encoding-detection heuristic of this repository.

Strings are embedded as `List Char`.  Python string operations
(`str.replace`, `str.find`, `str.count`, slicing, `str.strip`) are given
executable Lean counterparts with Python semantics; the index-based loops
of `krutidev_to_unicode` are embedded faithfully, with every character
access that can raise `IndexError` in Python modelled as an `Option`
failure, so that the totality claim about the converter is meaningful.

The module `dictionary` (the glyph table `MAIN` and the character class
sets) is part of the repository but is not among the provided sources;
all conversion functions are therefore parametrised by those tables, and
concrete claims are settled against tables modelled from the spec
(marked `Modelled from the spec:` below).

Floating point note: the detection heuristic compares ratios of character
counts (denominators at most 1000) against the literals 0.3, 0.5, 0.1,
0.2, 0.05, and the length test in `smart_convert` compares an integer
against `len * 0.3`.  Any two distinct values that can meet in such a
comparison differ by at least 1/10000, while double rounding errors are
below 1e-13 at these magnitudes, so no comparison can be flipped by
rounding; the embedding uses exact rationals.
-/

/-- Python `str.replace('', repl)`: `repl` is inserted at every
position. -/
def pyRepEmptyIns (repl : List Char) : List Char → List Char
  | [] => repl
  | a :: t => repl ++ a :: pyRepEmptyIns repl t

/-- Worker for `str.replace` with a non-empty `find`: leftmost
non-overlapping replacement.  The first argument counts characters of a
just-matched occurrence that remain to be consumed (kept structural so
the kernel can evaluate concrete instances); at `0` the scan either
matches `find` at the current position — emitting `repl` and consuming
the occurrence — or keeps the current character. -/
def pyRepAux (find repl : List Char) : Nat → List Char → List Char
  | _, [] => []
  | s + 1, _ :: t => pyRepAux find repl s t
  | 0, a :: t =>
    if find.isPrefixOf (a :: t) then
      repl ++ pyRepAux find repl (find.length - 1) t
    else a :: pyRepAux find repl 0 t

/-- Python `str.replace(find, repl)` (all occurrences, leftmost,
non-overlapping; an empty `find` inserts `repl` at every position). -/
def pyReplace (find repl : List Char) (t : List Char) : List Char :=
  if find.isEmpty then pyRepEmptyIns repl t else pyRepAux find repl 0 t

/-- Python `str.replace(find, repl, 1)` (first occurrence only). -/
def pyReplace1 (find repl : List Char) : List Char → List Char
  | [] => if find.isEmpty then repl else []
  | a :: t =>
    if find.isPrefixOf (a :: t) then repl ++ (a :: t).drop find.length
    else a :: pyReplace1 find repl t

/-- Worker for `str.count` with a non-empty `find` (same skip-counter
scheme as `pyRepAux`). -/
def countOccsAux (find : List Char) : Nat → List Char → Nat
  | _, [] => 0
  | s + 1, _ :: t => countOccsAux find s t
  | 0, a :: t =>
    if find.isPrefixOf (a :: t) then
      1 + countOccsAux find (find.length - 1) t
    else countOccsAux find 0 t

/-- Python `str.count(find)` (non-overlapping occurrence count;
`t.count('')` is `len(t) + 1`). -/
def countOccs (find : List Char) (t : List Char) : Nat :=
  if find.isEmpty then t.length + 1 else countOccsAux find 0 t

/-- Python `str.find(sub)`, as `Option` (`none` for Python's `-1`). -/
def pyFind (find : List Char) : List Char → Option Nat
  | [] => if find.isPrefixOf [] then some 0 else none
  | a :: rest =>
    if find.isPrefixOf (a :: rest) then some 0
    else (pyFind find rest).map (· + 1)

/-- Python `text[:i] + [c] + text[i+1:]` (single-position overwrite via
slicing; total, like Python slicing). -/
def pySet (t : List Char) (i : Nat) (c : Char) : List Char :=
  t.take i ++ c :: t.drop (i + 1)

/-- Whitespace for Python `str.strip` (the BMP whitespace characters
relevant to this development). -/
def isPyWs (c : Char) : Bool :=
  c = ' ' ∨ c = '\t' ∨ c = '\n' ∨ c = '\r' ∨ c = Char.ofNat 0x0b ∨
    c = Char.ofNat 0x0c ∨ c = Char.ofNat 0x1c ∨ c = Char.ofNat 0x1d ∨
    c = Char.ofNat 0x1e ∨ c = Char.ofNat 0x1f ∨ c = Char.ofNat 0x85 ∨
    c = Char.ofNat 0xa0

/-- Python `str.strip()`. -/
def pyStrip (t : List Char) : List Char :=
  ((t.dropWhile isPyWs).reverse.dropWhile isPyWs).reverse

/-- Devanagari block test `U+0900 <= c <= U+097F`, as in the source. -/
def isDev (c : Char) : Bool :=
  decide (0x900 ≤ c.toNat ∧ c.toNat ≤ 0x97F)

/-- U+094D, the virama. -/
def virama : Char := Char.ofNat 0x94D

/-- U+093F, the short-i vowel sign. -/
def iMark : Char := Char.ofNat 0x93F

/-- U+0940, the long-i vowel sign. -/
def iiMark : Char := Char.ofNat 0x940

/-- U+0902, the anusvara. -/
def anusvara : Char := Char.ofNat 0x902

/-- U+0930, the consonant RA. -/
def raChar : Char := Char.ofNat 0x930

/-- U+00AA, the legacy half-RA glyph handled by the spacing cleanup. -/
def chAA : Char := Char.ofNat 0xAA

/-- U+00B1, legacy code for reph + anusvara. -/
def chB1 : Char := Char.ofNat 0xB1

/-- U+00C6, legacy code for reph + short-i. -/
def chC6 : Char := Char.ofNat 0xC6

/-- U+00C7, legacy code for short-i + anusvara. -/
def chC7 : Char := Char.ofNat 0xC7

/-- U+00AF, alternative legacy code for short-i + anusvara. -/
def chAF : Char := Char.ofNat 0xAF

/-- U+00C9, legacy code for reph + short-i + anusvara. -/
def chC9 : Char := Char.ofNat 0xC9

/-- U+00CA, legacy code for long-i + reph. -/
def chCA : Char := Char.ofNat 0xCA

/-!
The four `re.finditer` loops of `krutidev_to_unicode` iterate over the
matches of a pattern computed on the string object captured when the
loop starts, while the loop body rebinds `text`; the scanners below
produce exactly those match lists (group 1 of each match, as a list of
zero or one characters), and the stages fold the loop bodies over them.
-/

/-- Matches of `re.finditer('f(.?)', text)`: group 1 of each match. -/
def fMatches : List Char → List (List Char)
  | [] => []
  | [c] => if c = 'f' then [[]] else []
  | c :: d :: rest =>
    if c = 'f' then [d] :: fMatches rest else fMatches (d :: rest)

/-- Matches of `re.finditer('fa(.?)', text)`: group 1 of each match. -/
def faMatches : List Char → List (List Char)
  | [] => []
  | [_] => []
  | [c, d] => if c = 'f' ∧ d = 'a' then [[]] else []
  | c :: d :: e :: rest =>
    if c = 'f' ∧ d = 'a' then [e] :: faMatches rest
    else faMatches (d :: e :: rest)

/-- Matches of `re.finditer('ि्(.?)', text)`: group 1 of each
match (short-i sign followed by virama, then an optional character). -/
def iMatches : List Char → List (List Char)
  | [] => []
  | [_] => []
  | [c, d] => if c = iMark ∧ d = virama then [[]] else []
  | c :: d :: e :: rest =>
    if c = iMark ∧ d = virama then [e] :: iMatches rest
    else iMatches (d :: e :: rest)

/-- Matches of `re.finditer('(.?)Z', text)`: group 1 of each match (the
optional group is greedy, so a character before `Z` is captured when
present). -/
def zMatches : List Char → List (List Char)
  | [] => []
  | [c] => if c = 'Z' then [[]] else []
  | c :: d :: rest =>
    if d = 'Z' then [c] :: zMatches rest
    else if c = 'Z' then [] :: zMatches (d :: rest)
    else zMatches (d :: rest)

/-- Match start indices of `re.finditer('[ab]', text)`. -/
def dashIdxs (t : List Char) : List Nat :=
  (List.range t.length).filter
    (fun i => t.get? i = some 'a' ∨ t.get? i = some 'b')

/-- Body of the ambiguous-dash loop: at a match index, look at the
following character of the current buffer; if it is neither a Krutidev
consonant nor an unattached Krutidev vowel sign, overwrite the match
position with `'&'`.  The character read is an `Option`: `none` models
Python's `IndexError` (the read is guarded by `index < len(text) - 1`).
-/
def dashStep (consK unatK : List Char) (buf : List Char) (i : Nat) :
    Option (List Char) :=
  if i < buf.length - 1 then
    match buf.get? (i + 1) with
    | none => none
    | some c =>
      if c ∉ consK ∧ c ∉ unatK then some (pySet buf i '&') else some buf
  else some buf

/-- The ambiguous-dash resolution stage (source lines 33-42). -/
def dashStage (consK unatK : List Char) (t : List Char) :
    Option (List Char) :=
  (dashIdxs t).foldlM (dashStep consK unatK) t

/-- The short-i reordering stage (source lines 52-55): for each
precomputed match, replace the first occurrence of `'f' + group` in the
current buffer by `group + U+093F`. -/
def fStage (t : List Char) : List Char :=
  (fMatches t).foldl
    (fun buf m => pyReplace1 ('f' :: m) (m ++ [iMark]) buf) t

/-- The short-i + anusvara reordering stage (source lines 62-65). -/
def faStage (t : List Char) : List Char :=
  (faMatches t).foldl
    (fun buf m => pyReplace1 ('f' :: 'a' :: m) (m ++ [iMark, anusvara]) buf)
    t

/-- The misplaced short-i-before-virama stage (source lines 70-73). -/
def iStage (t : List Char) : List Char :=
  (iMatches t).foldl
    (fun buf m =>
      pyReplace1 (iMark :: virama :: m) (virama :: (m ++ [iMark])) buf)
    t

/-- The reph-placement while loop (source lines 82-84): starting at the
found index, walk leftward while the current character is a Unicode
vowel sign, prepending each newly reached character to `match`.  When
the index reaches 0 and the character there is still a vowel sign,
Python decrements the index to `-1` and reads `text[-1]`, i.e. the last
character of the buffer; the loop then exits.  Out-of-range reads are
`none` (Python `IndexError`). -/
def rephWalk (buf vowelsU : List Char) : Nat → List Char →
    Option (List Char)
  | i, m =>
    match buf.get? i with
    | none => none
    | some c =>
      if c ∈ vowelsU then
        match i with
        | 0 => buf.getLast?.map (fun c' => c' :: m)
        | j + 1 =>
          match buf.get? j with
          | none => none
          | some c' => rephWalk buf vowelsU j (c' :: m)
      else some m

/-- Body of the reph-placement loop (source lines 78-87): re-find the
pattern `group + 'Z'` in the current buffer, walk leftward over vowel
signs, then replace the first occurrence of the extended pattern by
`RA + virama + extended group`.  When `str.find` returns `-1` the while
loop is skipped and the (no-op) replace still runs. -/
def rephStep (vowelsU : List Char) (buf : List Char) (m : List Char) :
    Option (List Char) :=
  match pyFind (m ++ ['Z']) buf with
  | none => some (pyReplace1 (m ++ ['Z']) (raChar :: virama :: m) buf)
  | some i =>
    (rephWalk buf vowelsU i m).map
      (fun m' => pyReplace1 (m' ++ ['Z']) (raChar :: virama :: m') buf)

/-- The reph-placement stage (source lines 78-87). -/
def rephStage (vowelsU : List Char) (t : List Char) :
    Option (List Char) :=
  (zMatches t).foldlM (rephStep vowelsU) t

/-- `krutidev_to_unicode` (source lines 17-102), parametrised by the
glyph table `MAIN` and the character class sets from the missing
`dictionary` module.  The result is `none` exactly when the Python
function would raise an exception. -/
def krutidev_to_unicode (MAIN : List (List Char × List Char))
    (consK unatK vowelsU unatU : List Char) (text : List Char) :
    Option (List Char) :=
  let t2 := pyReplace [' ', 'z'] ['z']
    (pyReplace [' ', '~', 'j'] ['~', 'j']
      (pyReplace [' ', chAA] [chAA] text))
  (dashStage consK unatK t2).bind (fun t3 =>
    let t4 := MAIN.foldl (fun b p => pyReplace p.1 p.2 b) t3
    let t6 := pyReplace [chC6] [raChar, virama, 'f']
      (pyReplace [chB1] ['Z', anusvara] t4)
    let t7 := fStage t6
    let t10 := pyReplace [chC9] [raChar, virama, 'f', 'a']
      (pyReplace [chAF] ['f', 'a'] (pyReplace [chC7] ['f', 'a'] t7))
    let t11 := faStage t10
    let t12 := pyReplace [chCA] [iiMark, 'Z'] t11
    let t13 := iStage t12
    let t14 := pyReplace [virama, 'Z'] ['Z'] t13
    (rephStage vowelsU t14).map (fun t15 =>
      let t16 := unatU.foldl
        (fun b m =>
          pyReplace [virama, m] [m, ',']
            (pyReplace [',', m] [m, ','] (pyReplace [' ', m] [m] b)))
        t15
      let t19 := pyReplace [virama, virama] [virama]
        (pyReplace [virama, raChar, virama] [raChar, virama]
          (pyReplace [virama, virama, raChar] [virama, raChar] t16))
      pyStrip (pyReplace [virama, ' '] [' '] t19)))

/-- Modelled from the spec: the ordered Glyph Map `MAIN` of the missing
`dictionary` module.  Per the spec, each rule maps a legacy
Latin/extended-ASCII byte sequence to a Unicode Devanagari sequence,
order is load-bearing (longer sequences first), the mapping is
many-to-one (here both `d` and `D` produce KA, exercising the reverse
collision policy), and one rule produces the non-Devanagari reph
placeholder `Z`.  A small representative table standing in for the
full ported data asset. -/
def MAIN_model : List (List Char × List Char) := [
  (['v', 'k'], [Char.ofNat 0x906]),
  (['H', 'k'], [Char.ofNat 0x92D]),
  (['[', 'k'], [Char.ofNat 0x916]),
  (['k', 'S'], [Char.ofNat 0x94C]),
  (['k', 's'], [Char.ofNat 0x94B]),
  (['d'], [Char.ofNat 0x915]),
  (['x'], [Char.ofNat 0x917]),
  (['j'], [Char.ofNat 0x930]),
  (['r'], [Char.ofNat 0x924]),
  (['e'], [Char.ofNat 0x92E]),
  (['u'], [Char.ofNat 0x928]),
  (['D'], [Char.ofNat 0x915]),
  (['k'], [Char.ofNat 0x93E]),
  (['h'], [Char.ofNat 0x940]),
  (['q'], [Char.ofNat 0x941]),
  (['s'], [Char.ofNat 0x947]),
  (['S'], [Char.ofNat 0x948]),
  (['z'], ['Z'])]

/-- Modelled from the spec: `CONSONANTS['krutidev']` of the missing
`dictionary` module (legacy characters that denote consonants). -/
def CONSONANTS_krutidev_model : List Char :=
  ['d', 'x', 'j', 'r', 'e', 'u', 'H', '[', '?', 'v', 'D']

/-- Modelled from the spec: `UNATTACHED['krutidev']` of the missing
`dictionary` module (legacy vowel signs). -/
def UNATTACHED_krutidev_model : List Char := ['k', 'h', 'q', 's', 'S']

/-- Modelled from the spec: `VOWELS['unicode']` of the missing
`dictionary` module (Unicode vowel-sign characters skipped by the
reph relocation). -/
def VOWELS_unicode_model : List Char :=
  [Char.ofNat 0x93E, Char.ofNat 0x93F, Char.ofNat 0x940,
   Char.ofNat 0x941, Char.ofNat 0x942, Char.ofNat 0x947,
   Char.ofNat 0x948, Char.ofNat 0x94B, Char.ofNat 0x94C,
   Char.ofNat 0x902, Char.ofNat 0x901]

/-- Modelled from the spec: `UNATTACHED['unicode']` of the missing
`dictionary` module (Unicode vowel signs that must never directly
follow a space, comma, or virama). -/
def UNATTACHED_unicode_model : List Char :=
  [Char.ofNat 0x93E, Char.ofNat 0x940, Char.ofNat 0x941,
   Char.ofNat 0x942, Char.ofNat 0x947, Char.ofNat 0x948,
   Char.ofNat 0x94B, Char.ofNat 0x94C]

/-- Modelled from the spec: `CONSONANTS['unicode']` (Unicode Devanagari
consonant characters, used to instantiate the quantified fixture
claims). -/
def CONSONANTS_unicode_model : List Char :=
  [Char.ofNat 0x915, Char.ofNat 0x916, Char.ofNat 0x924,
   Char.ofNat 0x928, Char.ofNat 0x92D, Char.ofNat 0x930]

/-- `krutidev_to_unicode` instantiated at the modelled tables. -/
def convM : List Char → Option (List Char) :=
  krutidev_to_unicode MAIN_model CONSONANTS_krutidev_model
    UNATTACHED_krutidev_model VOWELS_unicode_model UNATTACHED_unicode_model

/-- The dict returned by `detect_encoding` (`type`, `confidence`,
`needs_conversion`, `script`). -/
structure Detection where
  dtype : String
  confidence : ℚ
  needs_conversion : Bool
  script : String
deriving DecidableEq

/-- The fixed legacy-pattern list of `detect_encoding`. -/
def krutidev_patterns : List (List Char) :=
  [['k'], ['D', 'k'], ['[', 'k'], ['X', 'k'], ['?', 'k'], ['P', 'k'],
   ['N', 'k'], ['T', 'k'], ['v', 'k'], ['b', 'Z'], ['k', 's'], ['k', 'S']]

/-- Latin letter test `A-Z` or `a-z`, as in the source. -/
def isLatinLetter (c : Char) : Bool :=
  decide ((65 ≤ c.toNat ∧ c.toNat ≤ 90) ∨ (97 ≤ c.toNat ∧ c.toNat ≤ 122))

/-- Extended-ASCII test `0x80 <= ord(c) < 0x100`, as in the source. -/
def isExtAscii (c : Char) : Bool :=
  decide (128 ≤ c.toNat ∧ c.toNat < 256)

/-- `detect_encoding` (email_pipeline_ultimate.py lines 235-268).  The
guard `not text or len(text) < 5` collapses to the length test since an
empty string has length 0; confidences are exact rationals (see the
floating point note above). -/
def detect_encoding (t : List Char) : Detection :=
  if t.length < 5 then ⟨"unknown", 0, false, "unknown"⟩
  else
    let sample := t.take 1000
    let devanagari_count := sample.countP isDev
    let latin_count := sample.countP isLatinLetter
    let extended_ascii_count := sample.countP isExtAscii
    let total_chars :=
      (pyReplace ['\t'] []
        (pyReplace ['\n'] [] (pyReplace [' '] [] sample))).length
    if total_chars = 0 then ⟨"empty", 1, false, "none"⟩
    else
      let dr : ℚ := devanagari_count / total_chars
      let lr : ℚ := latin_count / total_chars
      let er : ℚ := extended_ascii_count / total_chars
      let pat_count :=
        (krutidev_patterns.map (fun p => countOccs p sample)).sum
      let ks : ℚ := pat_count / ((total_chars : ℚ) / 10)
      if dr > 3/10 then ⟨"unicode", 9/10, false, "devanagari"⟩
      else if ks > 1/2 ∨ er > 1/10 then
        ⟨"krutidev", min (9/10) ks, true, "devanagari"⟩
      else if lr > 1/2 then ⟨"english", 9/10, false, "latin"⟩
      else if lr > 1/5 ∧ dr > 1/20 then ⟨"mixed", 7/10, false, "mixed"⟩
      else ⟨"unknown", 3/10, false, "unknown"⟩

/-- `smart_convert` (email_pipeline_ultimate.py lines 271-292),
parametrised by the converter tables and the `KRUTIDEV_AVAILABLE` import
flag.  The `except` branch of the source corresponds to the converter
returning `none`. -/
def smart_convert (MAIN : List (List Char × List Char))
    (consK unatK vowelsU unatU : List Char) (avail : Bool)
    (t : List Char) : List Char × Detection :=
  let d := detect_encoding t
  if ¬ d.needs_conversion then (t, d)
  else if ¬ avail then (t, d)
  else
    match krutidev_to_unicode MAIN consK unatK vowelsU unatU t with
    | none => (t, d)
    | some converted =>
      if (converted.length : ℚ) < (t.length : ℚ) * (3/10) then (t, d)
      else (converted, d)

/-- The deduplicating accumulation of `_build_unicode_to_krutidev_map`:
iterate `MAIN` in order; for each rule whose Unicode side contains a
Devanagari character and whose Unicode side is not yet a key, append the
pair `(unicode, krutidev)`.  This mirrors insertion into the Python dict
`seen_unicode`, whose iteration order is insertion order. -/
def seenFold (MAIN : List (List Char × List Char)) :
    List (List Char × List Char) :=
  MAIN.foldl
    (fun acc p =>
      if p.2.any isDev ∧ ∀ q ∈ acc, q.1 ≠ p.2 then acc ++ [(p.2, p.1)]
      else acc)
    []

/-- Stable insertion for descending length of the first component
(Python `sorted(..., key=len, reverse=True)` is a stable sort). -/
def insertLenDesc (x : List Char × List Char) :
    List (List Char × List Char) → List (List Char × List Char)
  | [] => [x]
  | y :: ys =>
    if y.1.length ≤ x.1.length then x :: y :: ys
    else y :: insertLenDesc x ys

/-- Stable sort by descending length of the first component. -/
def sortLenDesc (l : List (List Char × List Char)) :
    List (List Char × List Char) :=
  l.foldr insertLenDesc []

/-- `_build_unicode_to_krutidev_map` (krutidev_converter.py lines
109-125). -/
def _build_unicode_to_krutidev_map (MAIN : List (List Char × List Char)) :
    List (List Char × List Char) :=
  sortLenDesc (seenFold MAIN)

/-- The supplementary `extra` table of `unicode_to_krutidev` (source
lines 148-174), in source order. -/
def u2kExtra : List (List Char × List Char) := [
  ([Char.ofNat 0x964], ['A']),
  ([Char.ofNat 0x965], ['A', 'A']),
  ([Char.ofNat 0x966], [Char.ofNat 0xE5]),
  ([Char.ofNat 0x967], [Char.ofNat 0xF8]),
  ([Char.ofNat 0x968], [Char.ofNat 0xF9]),
  ([Char.ofNat 0x969], [Char.ofNat 0xFA]),
  ([Char.ofNat 0x96A], [Char.ofNat 0xFB]),
  ([Char.ofNat 0x96B], [Char.ofNat 0xFC]),
  ([Char.ofNat 0x96C], [Char.ofNat 0xFD]),
  ([Char.ofNat 0x96D], [Char.ofNat 0xFE]),
  ([Char.ofNat 0x96E], [Char.ofNat 0xFF]),
  ([Char.ofNat 0x96F], [Char.ofNat 0x152]),
  ([Char.ofNat 0x902], ['a']),
  ([Char.ofNat 0x901], [Char.ofNat 0xA1]),
  ([Char.ofNat 0x93E], ['k']),
  ([Char.ofNat 0x93F], ['f']),
  ([Char.ofNat 0x940], ['h']),
  ([Char.ofNat 0x941], ['q']),
  ([Char.ofNat 0x942], ['w']),
  ([Char.ofNat 0x943], [Char.ofNat 0x60]),
  ([Char.ofNat 0x947], ['s']),
  ([Char.ofNat 0x948], ['S']),
  ([Char.ofNat 0x94B], ['k', 's']),
  ([Char.ofNat 0x94C], ['k', 'S']),
  ([Char.ofNat 0x94D], ['~'])]

/-- `unicode_to_krutidev` (krutidev_converter.py lines 131-184).  The
module-global cache `_UNICODE_TO_KRUTIDEV_MAP` is modelled by explicit
state passing: the function receives the current cache (`none` before
the first call) and returns the text together with the cache after the
call. -/
def unicode_to_krutidev (MAIN : List (List Char × List Char))
    (cache : Option (List (List Char × List Char))) (t : List Char) :
    List Char × Option (List (List Char × List Char)) :=
  let m := match cache with
    | none => _build_unicode_to_krutidev_map MAIN
    | some m => m
  let t1 := m.foldl (fun b p => pyReplace p.1 p.2 b) t
  let t2 := (sortLenDesc u2kExtra).foldl (fun b p => pyReplace p.1 p.2 b) t1
  (t2, some m)

/-!
Spec-side definitions.  These follow the wording of the spec and of the
claims (not the source); they exist to be compared against the source
embeddings above.
-/

/-- Written from the spec (section 4.2 stage 2 / claim about the
ambiguous-dash stage): a single left-to-right pass over the input; a
character `a`/`b` whose successor is neither a Krutidev consonant nor an
unattached Krutidev vowel sign becomes `'&'`; the last character is
never rewritten. -/
def dashSpec (consK unatK : List Char) : List Char → List Char
  | [] => []
  | [c] => [c]
  | c :: d :: rest =>
    (if (c = 'a' ∨ c = 'b') ∧ d ∉ consK ∧ d ∉ unatK then '&' else c) ::
      dashSpec consK unatK (d :: rest)

/-- Written from the claim C5 as stated: left-to-right, each `f`
followed by a character `C` becomes `C` + short-i mark, and an `f` at
the end of the buffer is dropped entirely. -/
def fPassDrop : List Char → List Char
  | [] => []
  | [c] => if c = 'f' then [] else [c]
  | c :: d :: rest =>
    if c = 'f' then d :: iMark :: fPassDrop rest
    else c :: fPassDrop (d :: rest)

/-- Written from the claim C5, amended: as `fPassDrop`, except that an
`f` at the end of the buffer is replaced by the short-i mark alone. -/
def fPassAmended : List Char → List Char
  | [] => []
  | [c] => if c = 'f' then [iMark] else [c]
  | c :: d :: rest =>
    if c = 'f' then d :: iMark :: fPassAmended rest
    else c :: fPassAmended (d :: rest)

/-- Two adjacent `f` characters somewhere in the list. -/
def hasFF : List Char → Bool
  | [] => false
  | [_] => false
  | c :: d :: rest => (c = 'f' && d = 'f') || hasFF (d :: rest)

/-- Written from the claim C6 as stated: the detection procedure with
"empty after removing whitespace separators" and "non-whitespace
character count" read with the standard whitespace class (which
includes `\r`). -/
def detectSpecClaim (t : List Char) : Detection :=
  if t.length < 5 then ⟨"unknown", 0, false, "unknown"⟩
  else
    let sample := t.take 1000
    let devanagari_count := sample.countP isDev
    let latin_count := sample.countP isLatinLetter
    let extended_ascii_count := sample.countP isExtAscii
    let total_chars := (sample.filter (fun c => ¬ isPyWs c)).length
    if total_chars = 0 then ⟨"empty", 1, false, "none"⟩
    else
      let dr : ℚ := devanagari_count / total_chars
      let lr : ℚ := latin_count / total_chars
      let er : ℚ := extended_ascii_count / total_chars
      let pat_count :=
        (krutidev_patterns.map (fun p => countOccs p sample)).sum
      let ks : ℚ := pat_count / ((total_chars : ℚ) / 10)
      if dr > 3/10 then ⟨"unicode", 9/10, false, "devanagari"⟩
      else if ks > 1/2 ∨ er > 1/10 then
        ⟨"krutidev", min (9/10) ks, true, "devanagari"⟩
      else if lr > 1/2 then ⟨"english", 9/10, false, "latin"⟩
      else if lr > 1/5 ∧ dr > 1/20 then ⟨"mixed", 7/10, false, "mixed"⟩
      else ⟨"unknown", 3/10, false, "unknown"⟩

/-- Written from the claim C6, amended: the same procedure with
"whitespace separators" made precise as exactly space, newline and tab
(the separators the code strips). -/
def detectSpecAmended (t : List Char) : Detection :=
  if t.length < 5 then ⟨"unknown", 0, false, "unknown"⟩
  else
    let sample := t.take 1000
    let devanagari_count := sample.countP isDev
    let latin_count := sample.countP isLatinLetter
    let extended_ascii_count := sample.countP isExtAscii
    let total_chars :=
      (sample.filter (fun c => ¬ (c = ' ' ∨ c = '\n' ∨ c = '\t'))).length
    if total_chars = 0 then ⟨"empty", 1, false, "none"⟩
    else
      let dr : ℚ := devanagari_count / total_chars
      let lr : ℚ := latin_count / total_chars
      let er : ℚ := extended_ascii_count / total_chars
      let pat_count :=
        (krutidev_patterns.map (fun p => countOccs p sample)).sum
      let ks : ℚ := pat_count / ((total_chars : ℚ) / 10)
      if dr > 3/10 then ⟨"unicode", 9/10, false, "devanagari"⟩
      else if ks > 1/2 ∨ er > 1/10 then
        ⟨"krutidev", min (9/10) ks, true, "devanagari"⟩
      else if lr > 1/2 then ⟨"english", 9/10, false, "latin"⟩
      else if lr > 1/5 ∧ dr > 1/20 then ⟨"mixed", 7/10, false, "mixed"⟩
      else ⟨"unknown", 3/10, false, "unknown"⟩

/-!  Helper lemmas about the Python string primitives. -/

theorem prefix_decomp {find t : List Char} (h : find.isPrefixOf t = true) :
    t = find ++ t.drop find.length := by
  have h' := List.isPrefixOf_iff_prefix.mp h
  exact (List.prefix_iff_eq_append.mp h').symm

theorem isPrefixOf_append_self (find s : List Char) :
    find.isPrefixOf (find ++ s) = true :=
  List.isPrefixOf_iff_prefix.mpr (List.prefix_append find s)

theorem pyRepAux_skip (find repl : List Char) :
    ∀ (u rest : List Char), pyRepAux find repl u.length (u ++ rest) =
      pyRepAux find repl 0 rest := by
  intro u
  induction u with
  | nil => intro rest; rfl
  | cons a u ih => intro rest; simpa [pyRepAux] using ih rest

theorem count_pyRepEmptyIns (repl : List Char) (c : Char) :
    ∀ t : List Char, t.count c ≤ (pyRepEmptyIns repl t).count c := by
  intro t
  induction t with
  | nil => simp [pyRepEmptyIns]
  | cons a t ih =>
    simp only [pyRepEmptyIns, List.count_append, List.count_cons]
    omega

theorem count_pyRepAux_mono {find repl : List Char} {c : Char}
    (hne : find ≠ []) (hcnt : find.count c ≤ repl.count c) :
    ∀ t : List Char, t.count c ≤ (pyRepAux find repl 0 t).count c := by
  suffices h : ∀ (n : Nat) (t : List Char), t.length = n →
      t.count c ≤ (pyRepAux find repl 0 t).count c by
    intro t; exact h t.length t rfl
  intro n
  induction n using Nat.strong_induction_on with
  | _ n ih =>
  intro t hn
  match t with
  | [] => simp [pyRepAux]
  | a :: t =>
    subst hn
    rw [pyRepAux]
    by_cases hp : find.isPrefixOf (a :: t) = true
    · rw [if_pos hp]
      obtain ⟨f, fs, rfl⟩ : ∃ f fs, find = f :: fs :=
        ⟨find.head hne, find.tail, (List.head_cons_tail find hne).symm⟩
      have hdec := prefix_decomp hp
      generalize hrest : (a :: t).drop (f :: fs).length = rest at hdec
      have htail : t = fs ++ rest := by
        simp only [List.cons_append] at hdec
        exact ((List.cons.injEq _ _ _ _).mp hdec).2
      have hskip : pyRepAux (f :: fs) repl ((f :: fs).length - 1) t =
          pyRepAux (f :: fs) repl 0 rest := by
        rw [htail]
        have h1 : (f :: fs).length - 1 = fs.length := by simp
        rw [h1, pyRepAux_skip]
      rw [hskip]
      have hlt : rest.length < (a :: t).length := by
        rw [← hrest]
        simp only [List.length_drop, List.length_cons]
        omega
      have hrec := ih rest.length hlt rest rfl
      have hsplit : (a :: t).count c =
          (f :: fs).count c + rest.count c := by
        conv_lhs => rw [hdec]
        exact List.count_append _ _ _
      rw [hsplit, List.count_append]
      omega
    · rw [if_neg hp]
      have hrec := ih t.length (by simp only [List.length_cons]; omega) t rfl
      simp only [List.count_cons]
      omega

theorem count_pyReplace_mono {find repl : List Char} {c : Char}
    (hcnt : find.count c ≤ repl.count c) (t : List Char) :
    t.count c ≤ (pyReplace find repl t).count c := by
  unfold pyReplace
  by_cases he : find.isEmpty
  · rw [if_pos he]; exact count_pyRepEmptyIns repl c t
  · rw [if_neg he]
    exact count_pyRepAux_mono (by simpa [List.isEmpty_iff] using he) hcnt t

theorem count_pyReplace1_mono {find repl : List Char} {c : Char}
    (hcnt : find.count c ≤ repl.count c) :
    ∀ t : List Char, t.count c ≤ (pyReplace1 find repl t).count c := by
  intro t
  induction t with
  | nil =>
    by_cases he : find.isEmpty <;> simp [pyReplace1, he]
  | cons a t ih =>
    rw [pyReplace1]
    by_cases hp : find.isPrefixOf (a :: t) = true
    · rw [if_pos hp]
      have hdec := prefix_decomp hp
      have hsplit : (a :: t).count c =
          find.count c + ((a :: t).drop find.length).count c := by
        conv_lhs => rw [hdec]
        exact List.count_append _ _ _
      rw [hsplit, List.count_append]
      omega
    · rw [if_neg hp]
      simp only [List.count_cons]
      omega

theorem pyReplace_no_occ {find repl t : List Char} {x : Char}
    (hx : x ∈ find) (hnx : x ∉ t) : pyReplace find repl t = t := by
  have hne : find ≠ [] := by rintro rfl; simp at hx
  unfold pyReplace
  rw [if_neg (by simpa [List.isEmpty_iff] using hne)]
  induction t with
  | nil => rfl
  | cons a t ih =>
    rw [pyRepAux]
    have hp : ¬ find.isPrefixOf (a :: t) = true := by
      intro hp
      exact hnx (by rw [prefix_decomp hp]; exact List.mem_append_left _ hx)
    rw [if_neg hp, ih (fun hmem => hnx (List.mem_cons_of_mem a hmem))]

theorem pyReplace1_clean {h : Char} {find' repl p s : List Char}
    (hp : h ∉ p) :
    pyReplace1 (h :: find') repl (p ++ (h :: find') ++ s) =
      p ++ repl ++ s := by
  induction p with
  | nil =>
    simp only [List.nil_append, List.cons_append]
    rw [pyReplace1]
    have hpre : (h :: find').isPrefixOf (h :: (find' ++ s)) = true := by
      have := isPrefixOf_append_self (h :: find') s
      simpa [List.cons_append] using this
    rw [if_pos hpre]
    congr 1
    have hdl := List.drop_left (h :: find') s
    simpa [List.cons_append] using hdl
  | cons x p ih =>
    have hx : x ≠ h := fun he => hp (he ▸ List.mem_cons_self x p)
    simp only [List.cons_append]
    rw [pyReplace1]
    have hnp : ¬ (h :: find').isPrefixOf
        (x :: (p ++ (h :: find') ++ s)) = true := by
      intro hc
      have hthis := prefix_decomp hc
      simp only [List.cons_append] at hthis
      exact hx ((List.cons.injEq _ _ _ _).mp hthis).1
    rw [if_neg hnp]
    have := ih (fun hm => hp (List.mem_cons_of_mem x hm))
    simp only [List.cons_append] at this ⊢
    rw [this]

theorem count_dropWhile {p : Char → Bool} {c : Char} (hc : p c = false) :
    ∀ t : List Char, (t.dropWhile p).count c = t.count c := by
  intro t
  induction t with
  | nil => rfl
  | cons a t ih =>
    by_cases ha : p a = true
    · rw [List.dropWhile_cons_of_pos ha, ih, List.count_cons]
      have : ¬ a = c := fun he => by rw [he] at ha; rw [ha] at hc; cases hc
      simp [this]
    · rw [List.dropWhile_cons_of_neg ha]

theorem count_pyStrip {c : Char} (hc : isPyWs c = false) (t : List Char) :
    (pyStrip t).count c = t.count c := by
  unfold pyStrip
  rw [List.count_reverse, count_dropWhile hc, List.count_reverse,
    count_dropWhile hc]

theorem pySet_length {t : List Char} {i : Nat} (h : i < t.length)
    (c : Char) : (pySet t i c).length = t.length := by
  unfold pySet
  simp only [List.length_append, List.length_take, List.length_cons,
    List.length_drop]
  omega

theorem pySet_get?_ne {t : List Char} {i j : Nat} (h : i < t.length)
    (hne : j ≠ i) (c : Char) : (pySet t i c).get? j = t.get? j := by
  unfold pySet
  rcases Nat.lt_or_ge j i with hj | hj
  · rw [List.get?_append (by simp [List.length_take]; omega),
      List.get?_take hj]
  · have hj' : i < j := lt_of_le_of_ne hj (Ne.symm hne)
    rw [List.get?_append_right (by simp [List.length_take]; omega)]
    have hlen : (t.take i).length = i := by simp; omega
    rw [hlen]
    have hpos : 0 < j - i := by omega
    obtain ⟨k, hk⟩ : ∃ k, j - i = k + 1 := ⟨j - i - 1, by omega⟩
    rw [hk]
    simp only [List.get?_cons_succ]
    rw [List.get?_drop]
    congr 1
    omega

theorem pySet_get?_self {t : List Char} {i : Nat} (h : i < t.length)
    (c : Char) : (pySet t i c).get? i = some c := by
  unfold pySet
  rw [List.get?_append_right (by simp only [List.length_take]; omega)]
  have hlen : (t.take i).length = i := by
    simp only [List.length_take]; omega
  rw [hlen]
  simp

theorem pyFind_lt {find t : List Char} {i : Nat} (hne : find ≠ [])
    (h : pyFind find t = some i) : i < t.length := by
  induction t generalizing i with
  | nil =>
    rw [pyFind] at h
    have : ¬ find.isPrefixOf [] = true := by
      intro hc
      have := prefix_decomp hc
      simp at this
      exact hne this
    rw [if_neg this] at h
    cases h
  | cons a rest ih =>
    rw [pyFind] at h
    by_cases hp : find.isPrefixOf (a :: rest) = true
    · rw [if_pos hp] at h
      cases h
      simp
    · rw [if_neg hp] at h
      rcases Option.map_eq_some'.mp h with ⟨i', hi', rfl⟩
      have := ih hi'
      simp only [List.length_cons]
      omega

/-- Pure counterpart of `dashStep` whose condition reads the original
text `t` rather than the evolving buffer (used to factor the proof that
the stale match data makes no difference). -/
def dashPure (consK unatK : List Char) (t : List Char) (b : List Char)
    (i : Nat) : List Char :=
  match t.get? (i + 1) with
  | some c =>
    if i < t.length - 1 ∧ c ∉ consK ∧ c ∉ unatK then pySet b i '&' else b
  | none => b

theorem dashPure_eq_some {consK unatK t b : List Char} {i : Nat}
    {c : Char} (hg : t.get? (i + 1) = some c) :
    dashPure consK unatK t b i =
      if i < t.length - 1 ∧ c ∉ consK ∧ c ∉ unatK then pySet b i '&'
      else b := by
  unfold dashPure
  rw [hg]

theorem dashPure_eq_none {consK unatK t b : List Char} {i : Nat}
    (hg : t.get? (i + 1) = none) : dashPure consK unatK t b i = b := by
  unfold dashPure
  rw [hg]

theorem dashPure_length {consK unatK t b : List Char} {i : Nat}
    (hlen : b.length = t.length) :
    (dashPure consK unatK t b i).length = t.length := by
  rcases hg : t.get? (i + 1) with _ | c
  · rw [dashPure_eq_none hg]; exact hlen
  · rw [dashPure_eq_some hg]
    by_cases hc : i < t.length - 1 ∧ c ∉ consK ∧ c ∉ unatK
    · rw [if_pos hc]
      rw [pySet_length (by omega) '&']
      exact hlen
    · rw [if_neg hc]; exact hlen

theorem dash_fold_eq (consK unatK t : List Char) :
    ∀ (idxs : List Nat) (b : List Char), b.length = t.length →
      List.Pairwise (· < ·) idxs →
      (∀ j, (∃ i ∈ idxs, i ≤ j) → b.get? j = t.get? j) →
      List.foldlM (dashStep consK unatK) b idxs =
        some (idxs.foldl (dashPure consK unatK t) b) := by
  intro idxs
  induction idxs with
  | nil => intro b _ _ _; rfl
  | cons i rest ih =>
    intro b hlen hpw hagr
    have hstep : dashStep consK unatK b i =
        some (dashPure consK unatK t b i) := by
      unfold dashStep
      by_cases hg : i < b.length - 1
      · rw [if_pos hg]
        have hbt : b.get? (i + 1) = t.get? (i + 1) :=
          hagr (i + 1) ⟨i, List.mem_cons_self i rest, by omega⟩
        have hsome : ∃ c, t.get? (i + 1) = some c := by
          rcases hg2 : t.get? (i + 1) with _ | c
          · exfalso
            have := List.get?_eq_none.mp hg2
            omega
          · exact ⟨c, rfl⟩
        rcases hsome with ⟨c, hc⟩
        rw [hbt, hc, dashPure_eq_some hc]
        show (if c ∉ consK ∧ c ∉ unatK then some (pySet b i '&')
            else some b) =
          some (if i < t.length - 1 ∧ c ∉ consK ∧ c ∉ unatK then
            pySet b i '&' else b)
        by_cases hcc : c ∉ consK ∧ c ∉ unatK
        · rw [if_pos hcc, if_pos ⟨by omega, hcc⟩]
        · rw [if_neg hcc, if_neg (by rw [hlen] at hg; exact fun h => hcc h.2)]
      · rw [if_neg hg]
        rcases hg2 : t.get? (i + 1) with _ | c
        · rw [dashPure_eq_none hg2]
        · rw [dashPure_eq_some hg2, if_neg (by
            rintro ⟨h1, _⟩
            rw [hlen] at hg
            exact hg h1)]
    rw [List.foldlM_cons, hstep]
    show List.foldlM (dashStep consK unatK)
      (dashPure consK unatK t b i) rest = _
    have hlen' : (dashPure consK unatK t b i).length = t.length :=
      dashPure_length hlen
    have hagr' : ∀ j, (∃ i' ∈ rest, i' ≤ j) →
        (dashPure consK unatK t b i).get? j = t.get? j := by
      intro j ⟨i', hi', hij⟩
      have hii' : i < i' := (List.pairwise_cons.mp hpw).1 i' hi'
      have hji : j ≠ i := by omega
      have hbj : b.get? j = t.get? j :=
        hagr j ⟨i', List.mem_cons_of_mem i hi', hij⟩
      rcases hg : t.get? (i + 1) with _ | c
      · rw [dashPure_eq_none hg]; exact hbj
      · rw [dashPure_eq_some hg]
        by_cases hc : i < t.length - 1 ∧ c ∉ consK ∧ c ∉ unatK
        · rw [if_pos hc, pySet_get?_ne (by rw [hlen]; omega) hji '&']
          exact hbj
        · rw [if_neg hc]; exact hbj
    rw [ih _ hlen' (List.pairwise_cons.mp hpw).2 hagr']
    rfl

theorem dashIdxs_pairwise (t : List Char) :
    List.Pairwise (· < ·) (dashIdxs t) :=
  List.Pairwise.sublist (List.filter_sublist _) (List.pairwise_lt_range _)

theorem mem_dashIdxs {t : List Char} {j : Nat} :
    j ∈ dashIdxs t ↔ (t.get? j = some 'a' ∨ t.get? j = some 'b') := by
  unfold dashIdxs
  rw [List.mem_filter, List.mem_range]
  constructor
  · rintro ⟨_, hp⟩
    exact of_decide_eq_true hp
  · intro hp
    refine ⟨?_, decide_eq_true hp⟩
    by_contra hge
    have : t.get? j = none := List.get?_eq_none.mpr (by omega)
    rcases hp with h | h <;> rw [this] at h <;> cases h

theorem dashPureFold_get? (consK unatK t : List Char) :
    ∀ (idxs : List Nat) (b : List Char) (j : Nat), b.length = t.length →
      List.Pairwise (· < ·) idxs →
      (List.foldl (dashPure consK unatK t) b idxs).get? j =
        if j ∈ idxs ∧ j < t.length - 1 ∧
            (∃ c, t.get? (j + 1) = some c ∧ c ∉ consK ∧ c ∉ unatK) then
          some '&'
        else b.get? j := by
  intro idxs
  induction idxs with
  | nil =>
    intro b j _ _
    simp
  | cons i rest ih =>
    intro b j hlen hpw
    rw [List.foldl_cons]
    have hlen' : (dashPure consK unatK t b i).length = t.length :=
      dashPure_length hlen
    rw [ih _ j hlen' (List.pairwise_cons.mp hpw).2]
    by_cases hA : j ∈ rest ∧ j < t.length - 1 ∧
        (∃ c, t.get? (j + 1) = some c ∧ c ∉ consK ∧ c ∉ unatK)
    · rw [if_pos hA, if_pos ⟨List.mem_cons_of_mem i hA.1, hA.2⟩]
    · rw [if_neg hA]
      by_cases hji : j = i
      · subst hji
        by_cases hhot : j < t.length - 1 ∧
            (∃ c, t.get? (j + 1) = some c ∧ c ∉ consK ∧ c ∉ unatK)
        · rcases hhot.2 with ⟨c, hc, hcc⟩
          rw [dashPure_eq_some hc, if_pos ⟨hhot.1, hcc⟩,
            pySet_get?_self (by omega) '&',
            if_pos ⟨List.mem_cons_self j rest, hhot⟩]
        · rw [if_neg (fun hx => hhot hx.2)]
          rcases hg : t.get? (j + 1) with _ | c
          · rw [dashPure_eq_none hg]
          · rw [dashPure_eq_some hg]
            rw [if_neg (by
              rintro ⟨h1, h2⟩
              exact hhot ⟨h1, c, hg, h2⟩)]
      · have hmem : ¬ (j ∈ i :: rest ∧ j < t.length - 1 ∧
            (∃ c, t.get? (j + 1) = some c ∧ c ∉ consK ∧ c ∉ unatK)) := by
          rintro ⟨hm, hrest⟩
          rcases List.mem_cons.mp hm with rfl | hm'
          · exact hji rfl
          · exact hA ⟨hm', hrest⟩
        rw [if_neg hmem]
        rcases hg : t.get? (i + 1) with _ | c
        · rw [dashPure_eq_none hg]
        · rw [dashPure_eq_some hg]
          by_cases hcc : i < t.length - 1 ∧ c ∉ consK ∧ c ∉ unatK
          · rw [if_pos hcc,
              pySet_get?_ne (by rw [hlen]; omega) hji '&']
          · rw [if_neg hcc]

theorem dashSpec_length (consK unatK : List Char) :
    ∀ t : List Char, (dashSpec consK unatK t).length = t.length := by
  intro t
  induction t with
  | nil => rfl
  | cons c t ih =>
    match t with
    | [] => rfl
    | d :: rest =>
      rw [dashSpec]
      simp only [List.length_cons] at ih ⊢
      omega

theorem dashSpec_get? (consK unatK : List Char) :
    ∀ (t : List Char) (j : Nat),
      (dashSpec consK unatK t).get? j =
        match t.get? j with
        | none => none
        | some c => some (if (c = 'a' ∨ c = 'b') ∧
            (∃ d, t.get? (j + 1) = some d ∧ d ∉ consK ∧ d ∉ unatK) then '&'
          else c) := by
  intro t
  induction t with
  | nil => intro j; rfl
  | cons c t ih =>
    intro j
    match t with
    | [] =>
      match j with
      | 0 => simp [dashSpec]
      | 1 => rfl
      | j + 2 => rfl
    | d :: rest =>
      rw [dashSpec]
      match j with
      | 0 =>
        show some _ = _
        simp only [List.get?_cons_zero, List.get?_cons_succ]
        congr 1
        by_cases hab : c = 'a' ∨ c = 'b'
        · by_cases hd : d ∉ consK ∧ d ∉ unatK
          · rw [if_pos ⟨hab, hd⟩, if_pos ⟨hab, d, rfl, hd⟩]
          · rw [if_neg (fun hx => hd hx.2), if_neg (by
              rintro ⟨_, d', hd', hdd⟩
              cases hd'
              exact hd hdd)]
        · rw [if_neg (fun hx => hab hx.1), if_neg (fun hx => hab hx.1)]
      | j + 1 =>
        simp only [List.get?_cons_succ]
        exact ih j

/-- C9: the ambiguous-dash resolution stage (precomputed match indices,
in-place one-character rewrites on the evolving buffer) is equivalent to
a single left-to-right pass over the original input, and it never
changes the buffer length; in particular every stale match index and
following-character test agrees with the original text. -/
theorem dash_stage_refines_single_pass (consK unatK t : List Char) :
    dashStage consK unatK t = some (dashSpec consK unatK t) ∧
    (dashSpec consK unatK t).length = t.length := by
  refine ⟨?_, dashSpec_length consK unatK t⟩
  unfold dashStage
  rw [dash_fold_eq consK unatK t (dashIdxs t) t rfl (dashIdxs_pairwise t)
    (fun j _ => rfl)]
  congr 1
  apply List.ext
  intro j
  rw [dashPureFold_get? consK unatK t (dashIdxs t) t j rfl
    (dashIdxs_pairwise t), dashSpec_get?]
  rcases hj : t.get? j with _ | cj
  · rw [if_neg (by
      rintro ⟨hm, _⟩
      rcases mem_dashIdxs.mp hm with h | h <;> rw [hj] at h <;> cases h)]
  · show _ = some (if (cj = 'a' ∨ cj = 'b') ∧
      (∃ d, t.get? (j + 1) = some d ∧ d ∉ consK ∧ d ∉ unatK) then '&'
      else cj)
    by_cases hQ : (cj = 'a' ∨ cj = 'b') ∧
        (∃ d, t.get? (j + 1) = some d ∧ d ∉ consK ∧ d ∉ unatK)
    · obtain ⟨hab, d, hd, hdd⟩ := hQ
      have hjlt : j < t.length - 1 := by
        have hne : ¬ t.length ≤ j + 1 := fun hle => by
          rw [List.get?_eq_none.mpr hle] at hd; cases hd
        omega
      rw [if_pos ⟨mem_dashIdxs.mpr (by
          rcases hab with h | h <;> rw [hj, h]
          · exact Or.inl rfl
          · exact Or.inr rfl),
        hjlt, d, hd, hdd⟩, if_pos ⟨hab, d, hd, hdd⟩]
    · rw [if_neg (by
        rintro ⟨hm, hlt, c, hc, hcc⟩
        refine hQ ⟨?_, c, hc, hcc⟩
        rcases mem_dashIdxs.mp hm with h | h <;> rw [hj] at h <;>
          cases h <;> simp), if_neg hQ]

theorem rephWalk_isSome (buf vowelsU : List Char) :
    ∀ (i : Nat) (m : List Char), i < buf.length →
      (rephWalk buf vowelsU i m).isSome = true := by
  intro i
  induction i with
  | zero =>
    intro m h0
    rcases hg : buf.get? 0 with _ | c
    · exfalso
      have := List.get?_eq_none.mp hg
      omega
    · simp only [rephWalk, hg]
      by_cases hv : c ∈ vowelsU
      · rw [if_pos hv]
        have hne : buf ≠ [] := by
          intro he
          rw [he] at h0
          simp at h0
        rcases hl : buf.getLast? with _ | c'
        · exact absurd (List.getLast?_isSome.mpr hne) (by rw [hl]; simp)
        · simp [hl]
      · rw [if_neg hv]
        rfl
  | succ j ih =>
    intro m hj
    rcases hg : buf.get? (j + 1) with _ | c
    · exfalso
      have := List.get?_eq_none.mp hg
      omega
    · simp only [rephWalk, hg]
      by_cases hv : c ∈ vowelsU
      · rw [if_pos hv]
        rcases hg2 : buf.get? j with _ | c'
        · exfalso
          have := List.get?_eq_none.mp hg2
          omega
        · exact ih (c' :: m) (by omega)
      · rw [if_neg hv]
        rfl

theorem rephStep_isSome (vowelsU buf m : List Char) :
    (rephStep vowelsU buf m).isSome = true := by
  unfold rephStep
  rcases hf : pyFind (m ++ ['Z']) buf with _ | i
  · rfl
  · have hi : i < buf.length := pyFind_lt (by simp) hf
    rcases hw : rephWalk buf vowelsU i m with _ | m'
    · exact absurd (rephWalk_isSome buf vowelsU i m hi)
        (by rw [hw]; simp)
    · show (Option.map _ (rephWalk buf vowelsU i m)).isSome = true
      rw [hw]
      rfl

theorem rephStage_isSome (vowelsU t : List Char) :
    (rephStage vowelsU t).isSome = true := by
  unfold rephStage
  generalize zMatches t = ms
  induction ms generalizing t with
  | nil => rfl
  | cons m ms ih =>
    rw [List.foldlM_cons]
    rcases hs : rephStep vowelsU t m with _ | b'
    · exact absurd (rephStep_isSome vowelsU t m) (by rw [hs]; simp)
    · show (List.foldlM (rephStep vowelsU) b' ms).isSome = true
      exact ih b'

theorem dashStage_eq (consK unatK t : List Char) :
    dashStage consK unatK t =
      some (List.foldl (dashPure consK unatK t) t (dashIdxs t)) :=
  dash_fold_eq consK unatK t (dashIdxs t) t rfl (dashIdxs_pairwise t)
    (fun _ _ => rfl)

/-- C1: for every input string and any contents of the glyph table and
character class sets, `krutidev_to_unicode` terminates normally and
returns a string: no execution path raises an exception (`none` in this
embedding); in particular the reph-placement loop, which can step its
index to Python's `-1` (a read of the last buffer character), never
faults. -/
theorem krutidev_to_unicode_total (MAIN : List (List Char × List Char))
    (consK unatK vowelsU unatU : List Char) (text : List Char) :
    (krutidev_to_unicode MAIN consK unatK vowelsU unatU text).isSome =
      true := by
  simp only [krutidev_to_unicode]
  rw [dashStage_eq, Option.some_bind]
  rcases hs : rephStage vowelsU (pyReplace [virama, 'Z'] ['Z'] _)
      with _ | t15
  · exact absurd (rephStage_isSome vowelsU _) (by rw [hs]; simp)
  · rfl

/-- C8: `unicode_to_krutidev` is deterministic.  A first call from the
empty cache installs the reverse map built from `MAIN`; a second call on
the same input, using the cache state the first call returned, produces
the same output, and the installed cache never changes the input-output
behaviour relative to a fresh call on any input. -/
theorem reverse_converter_deterministic
    (MAIN : List (List Char × List Char)) (t : List Char) :
    (unicode_to_krutidev MAIN
        (unicode_to_krutidev MAIN none t).2 t).1 =
      (unicode_to_krutidev MAIN none t).1 ∧
    (unicode_to_krutidev MAIN none t).2 =
      some (_build_unicode_to_krutidev_map MAIN) ∧
    (∀ t' : List Char,
      (unicode_to_krutidev MAIN
          (some (_build_unicode_to_krutidev_map MAIN)) t').1 =
        (unicode_to_krutidev MAIN none t').1) :=
  ⟨rfl, rfl, fun _ => rfl⟩

/-- C10: `smart_convert` returns the unmodified detection result of
`detect_encoding` on its input, and its text component is either the
input unchanged or a converter output whose length is at least 0.3
times the input length; a conversion result shorter than 30 percent of
the input is never returned. -/
theorem smart_convert_safe (MAIN : List (List Char × List Char))
    (consK unatK vowelsU unatU : List Char) (avail : Bool)
    (t : List Char) :
    (smart_convert MAIN consK unatK vowelsU unatU avail t).2 =
      detect_encoding t ∧
    ((smart_convert MAIN consK unatK vowelsU unatU avail t).1 = t ∨
      (krutidev_to_unicode MAIN consK unatK vowelsU unatU t =
          some (smart_convert MAIN consK unatK vowelsU unatU avail t).1 ∧
        (t.length : ℚ) * (3/10) ≤
          ((smart_convert MAIN consK unatK vowelsU unatU avail t).1.length
            : ℚ))) := by
  by_cases h1 : ¬ (detect_encoding t).needs_conversion
  · have hsc : smart_convert MAIN consK unatK vowelsU unatU avail t =
        (t, detect_encoding t) := by
      unfold smart_convert
      rw [if_pos h1]
    rw [hsc]
    exact ⟨rfl, Or.inl rfl⟩
  · by_cases h2 : ¬ avail = true
    · have hsc : smart_convert MAIN consK unatK vowelsU unatU avail t =
          (t, detect_encoding t) := by
        unfold smart_convert
        rw [if_neg h1, if_pos h2]
      rw [hsc]
      exact ⟨rfl, Or.inl rfl⟩
    · rcases hc : krutidev_to_unicode MAIN consK unatK vowelsU unatU t
          with _ | converted
      · have hsc : smart_convert MAIN consK unatK vowelsU unatU avail t =
            (t, detect_encoding t) := by
          unfold smart_convert
          rw [if_neg h1, if_neg h2, hc]
        rw [hsc]
        exact ⟨rfl, Or.inl rfl⟩
      · by_cases h3 : (converted.length : ℚ) < (t.length : ℚ) * (3/10)
        · have hsc : smart_convert MAIN consK unatK vowelsU unatU avail t =
              (t, detect_encoding t) := by
            unfold smart_convert
            rw [if_neg h1, if_neg h2, hc]
            show (if (converted.length : ℚ) < (t.length : ℚ) * (3/10)
              then (t, detect_encoding t)
              else (converted, detect_encoding t)) = _
            rw [if_pos h3]
          rw [hsc]
          exact ⟨rfl, Or.inl rfl⟩
        · have hsc : smart_convert MAIN consK unatK vowelsU unatU avail t =
              (converted, detect_encoding t) := by
            unfold smart_convert
            rw [if_neg h1, if_neg h2, hc]
            show (if (converted.length : ℚ) < (t.length : ℚ) * (3/10)
              then (t, detect_encoding t)
              else (converted, detect_encoding t)) = _
            rw [if_neg h3]
          rw [hsc]
          exact ⟨rfl, Or.inr ⟨rfl, le_of_not_lt h3⟩⟩

set_option maxRecDepth 4000

/-- C2 (code bug): on the input KA + three viramas + space + KA, the
converter returns KA + virama + space + KA — the output retains a
virama immediately followed by whitespace, although the cleanup pass
(source lines 99-100 and the comments at lines 89 and 99) is meant to
remove exactly that: the preceding doubled-virama collapse leaves a
`virama virama space` run that the single non-overlapping
`'virama space' -> 'space'` replacement reduces to `virama space`. -/
theorem trailing_virama_cleanup_bug :
    convM [Char.ofNat 0x915, virama, virama, virama, ' ',
        Char.ofNat 0x915] =
      some [Char.ofNat 0x915, virama, ' ', Char.ofNat 0x915] ∧
    (pyFind [virama, ' ']
        [Char.ofNat 0x915, virama, ' ', Char.ofNat 0x915]).isSome =
      true := by
  decide

/-- C3 counterexample: the all-Devanagari input `virama RA virama` is
rewritten by the hard-coded cleanup `'virama RA virama' -> 'RA virama'`
(source line 96), so the output has 2 Devanagari characters against 3
in the input: the forward converter can reduce the Devanagari character
count of an already-Unicode input. -/
theorem devanagari_count_cex :
    convM [virama, raChar, virama] = some [raChar, virama] ∧
    [raChar, virama].countP isDev <
      [virama, raChar, virama].countP isDev := by
  decide

/-- C4 counterexample: for consonant1 KA, vowel sign AA and consonant2
KHA, the converter turns `KA AA KHA Z` into `KA AA RA virama KHA`: the
reph lands immediately before consonant2 (the character captured by the
`(.?)Z` match), not before consonant1, because the leftward walk starts
at consonant2 and stops at once (a consonant is not a vowel sign). -/
theorem reph_fixture_cex :
    convM [Char.ofNat 0x915, Char.ofNat 0x93E, Char.ofNat 0x916, 'Z'] =
      some [Char.ofNat 0x915, Char.ofNat 0x93E, raChar, virama,
        Char.ofNat 0x916] ∧
    [Char.ofNat 0x915, Char.ofNat 0x93E, raChar, virama,
        Char.ofNat 0x916] ≠
      [raChar, virama, Char.ofNat 0x915, Char.ofNat 0x93E,
        Char.ofNat 0x916] := by
  decide

/-- C4 amended: for every modelled Unicode consonant c1, vowel sign v
and consonant c2, converting `c1 v c2 Z` inserts the reph (RA + virama)
immediately before c2 — the consonant directly preceding the Z token —
leaving c1 and the vowel sign in place, with the Z deleted; the
vowel-sign-skipping relocation applies when the Z directly follows the
vowel-sign run: `c1 v Z` converts with the reph immediately before c1.
-/
theorem reph_fixture_amended :
    ∀ c1 ∈ CONSONANTS_unicode_model, ∀ v ∈ VOWELS_unicode_model,
      ∀ c2 ∈ CONSONANTS_unicode_model,
        convM [c1, v, c2, 'Z'] = some [c1, v, raChar, virama, c2] ∧
        convM [c1, v, 'Z'] = some [raChar, virama, c1, v] := by
  decide

/-- Witness for the amended C4 at KA, AA, KHA. -/
theorem reph_fixture_amended_witness :
    convM [Char.ofNat 0x915, Char.ofNat 0x93E, Char.ofNat 0x916, 'Z'] =
      some [Char.ofNat 0x915, Char.ofNat 0x93E, raChar, virama,
        Char.ofNat 0x916] ∧
    convM [Char.ofNat 0x915, Char.ofNat 0x93E, 'Z'] =
      some [raChar, virama, Char.ofNat 0x915, Char.ofNat 0x93E] :=
  reph_fixture_amended (Char.ofNat 0x915) (by decide)
    (Char.ofNat 0x93E) (by decide) (Char.ofNat 0x916) (by decide)

/-- C5 counterexample: on `fff` the stage leaves `short-i short-i f` —
the second replacement (for the trailing-`f` match) rewrites the first
`f` of the buffer, which was the group character of the first match —
while the claimed left-to-right pass (with a trailing `f` dropped)
would produce `f short-i`. -/
theorem fstage_claim_cex :
    fStage ['f', 'f', 'f'] = [iMark, iMark, 'f'] ∧
    fPassDrop ['f', 'f', 'f'] = ['f', iMark] ∧
    fStage ['f', 'f', 'f'] ≠ fPassDrop ['f', 'f', 'f'] := by
  decide

theorem fStage_clean_main :
    ∀ (n : Nat) (t p : List Char), t.length ≤ n → 'f' ∉ p →
      hasFF t = false →
      (fMatches t).foldl
          (fun buf m => pyReplace1 ('f' :: m) (m ++ [iMark]) buf)
          (p ++ t) =
        p ++ fPassAmended t := by
  intro n
  induction n with
  | zero =>
    intro t p hlen _ _
    have ht : t = [] := List.eq_nil_of_length_eq_zero
      (Nat.le_zero.mp hlen)
    subst ht
    simp [fMatches, fPassAmended]
  | succ n ih =>
    intro t p hlen hp hff
    match t with
    | [] => simp [fMatches, fPassAmended]
    | [c] =>
      by_cases hc : c = 'f'
      · subst hc
        rw [show fMatches ['f'] = [[]] from by simp [fMatches],
          show fPassAmended ['f'] = [iMark] from by simp [fPassAmended],
          List.foldl_cons, List.foldl_nil]
        have hcl := @pyReplace1_clean 'f' [] [iMark] p [] hp
        simpa using hcl
      · rw [show fMatches [c] = [] from by simp [fMatches, hc],
          show fPassAmended [c] = [c] from by simp [fPassAmended, hc],
          List.foldl_nil]
    | c :: d :: rest =>
      have hff' : hasFF (d :: rest) = false := by
        rw [hasFF, Bool.or_eq_false_iff] at hff
        exact hff.2
      by_cases hc : c = 'f'
      · subst hc
        have hd : ¬ d = 'f' := by
          rw [hasFF, Bool.or_eq_false_iff] at hff
          intro hde
          have := hff.1
          rw [hde] at this
          simp at this
        rw [show fMatches ('f' :: d :: rest) = [d] :: fMatches rest from
            by simp [fMatches],
          show fPassAmended ('f' :: d :: rest) =
              d :: iMark :: fPassAmended rest from by simp [fPassAmended],
          List.foldl_cons]
        have hstep : pyReplace1 ('f' :: [d]) ([d] ++ [iMark])
            (p ++ 'f' :: d :: rest) = (p ++ [d, iMark]) ++ rest := by
          have hcl := @pyReplace1_clean 'f' [d] [d, iMark] p rest hp
          simpa [List.append_assoc] using hcl
        rw [hstep]
        have hrest : hasFF rest = false := by
          match rest with
          | [] => rfl
          | e :: rest' =>
            rw [hasFF, Bool.or_eq_false_iff] at hff'
            exact hff'.2
        have := ih rest (p ++ [d, iMark])
          (by simp only [List.length_cons] at hlen ⊢; omega)
          (by
            intro hmem
            rcases List.mem_append.mp hmem with hm | hm
            · exact hp hm
            · have hm2 : 'f' = d ∨ 'f' = iMark := by simpa using hm
              rcases hm2 with hm2 | hm2
              · exact hd hm2.symm
              · exact absurd hm2 (by decide))
          hrest
        rw [this]
        simp [List.append_assoc]
      · rw [show fMatches (c :: d :: rest) = fMatches (d :: rest) from
            by simp [fMatches, hc],
          show fPassAmended (c :: d :: rest) =
              c :: fPassAmended (d :: rest) from by simp [fPassAmended, hc]]
        have := ih (d :: rest) (p ++ [c])
          (by simp only [List.length_cons] at hlen ⊢; omega)
          (by
            intro hmem
            rcases List.mem_append.mp hmem with hm | hm
            · exact hp hm
            · have hm2 : 'f' = c := by simpa using hm
              exact hc hm2.symm)
          hff'
        rw [show p ++ c :: d :: rest = (p ++ [c]) ++ (d :: rest) from by
          simp [List.append_assoc], this]
        simp [List.append_assoc]

/-- C5 amended: the short-i reordering stage performs the claimed
left-to-right pass — each `f` followed by a character C is replaced by
C + the short-i mark — provided the stage input contains no two
adjacent `f` characters; an `f` at the end of the buffer is replaced by
the short-i mark alone (it is not dropped). -/
theorem fstage_noff_pass (t : List Char) (h : hasFF t = false) :
    fStage t = fPassAmended t := by
  have hmain := fStage_clean_main t.length t [] le_rfl (by simp) h
  simpa [fStage] using hmain

/-- Witness for the amended C5 at the input `fa`. -/
theorem fstage_noff_pass_witness :
    hasFF ['f', 'a'] = false ∧
    fStage ['f', 'a'] = fPassAmended ['f', 'a'] :=
  ⟨by decide, fstage_noff_pass ['f', 'a'] (by decide)⟩

theorem pyReplace_single_del (c : Char) (t : List Char) :
    pyReplace [c] [] t = t.filter (fun x => ¬ x = c) := by
  unfold pyReplace
  rw [if_neg (by simp)]
  induction t with
  | nil => rfl
  | cons a t ih =>
    rw [pyRepAux]
    by_cases hac : [c].isPrefixOf (a :: t) = true
    · have hca : a = c := by
        have hthis := prefix_decomp hac
        simpa using ((List.cons.injEq _ _ _ _).mp hthis).1
      rw [if_pos hac]
      subst hca
      simpa [List.filter_cons] using ih
    · have hne : ¬ a = c := by
        intro hca
        subst hca
        exact hac (by simp [List.isPrefixOf])
      rw [if_neg hac, ih]
      simp [List.filter_cons, hne]

theorem total_chars_chain (s : List Char) :
    (pyReplace ['\t'] []
        (pyReplace ['\n'] [] (pyReplace [' '] [] s))).length =
      (s.filter (fun c => ¬ (c = ' ' ∨ c = '\n' ∨ c = '\t'))).length := by
  rw [pyReplace_single_del, pyReplace_single_del, pyReplace_single_del,
    List.filter_filter, List.filter_filter]
  congr 1
  apply List.filter_congr
  intro x _
  by_cases h1 : x = ' ' <;> by_cases h2 : x = '\n' <;>
    by_cases h3 : x = '\t' <;> simp [h1, h2, h3]

/-- C6 amended: `detect_encoding` implements exactly the claimed
decision procedure once "removing whitespace separators" is made
precise as removing exactly space, newline and tab (the code's
separator set), with ratios over the count of the remaining
characters. -/
theorem detect_eq_spec_amended (t : List Char) :
    detect_encoding t = detectSpecAmended t := by
  simp only [detect_encoding, detectSpecAmended]
  rw [total_chars_chain]

/-- C6 counterexample: on five carriage-return characters the claimed
procedure (reading `\r` as a whitespace separator) requires the Empty
classification with confidence 1.0, but `detect_encoding` only strips
space, newline and tab, so the sample is nonempty for it and it
returns Unknown with confidence 0.3. -/
theorem detect_whitespace_cex :
    detect_encoding (List.replicate 5 '\r') ≠
      detectSpecClaim (List.replicate 5 '\r') := by
  have h1 : detect_encoding (List.replicate 5 '\r') =
      ⟨"unknown", 3/10, false, "unknown"⟩ := by
    have hlen : ¬ ((List.replicate 5 '\r').length < 5) := by decide
    have hd : (List.take 1000 (List.replicate 5 '\r')).countP isDev = 0 :=
      by decide
    have hl : (List.take 1000 (List.replicate 5 '\r')).countP
        isLatinLetter = 0 := by decide
    have he : (List.take 1000 (List.replicate 5 '\r')).countP
        isExtAscii = 0 := by decide
    have ht : (pyReplace ['\t'] [] (pyReplace ['\n'] []
        (pyReplace [' '] []
          (List.take 1000 (List.replicate 5 '\r'))))).length = 5 := by
      decide
    have hpat : (krutidev_patterns.map
        (fun p => countOccs p
          (List.take 1000 (List.replicate 5 '\r')))).sum = 0 := by decide
    simp only [detect_encoding, hlen, if_false, hd, hl, he, ht, hpat]
    norm_num
  have h2 : detectSpecClaim (List.replicate 5 '\r') =
      ⟨"empty", 1, false, "none"⟩ := by
    have hlen : ¬ ((List.replicate 5 '\r').length < 5) := by decide
    have ht : ((List.take 1000 (List.replicate 5 '\r')).filter
        (fun c => ¬ isPyWs c)).length = 0 := by decide
    simp only [detectSpecClaim, hlen, if_false, ht, if_true]
  rw [h1, h2]
  simp

theorem foldl_pyReplace1_mono {c : Char} (mkF mkR : List Char → List Char)
    (h : ∀ m, (mkF m).count c ≤ (mkR m).count c) :
    ∀ (ms : List (List Char)) (b : List Char),
      b.count c ≤
        (ms.foldl (fun buf m => pyReplace1 (mkF m) (mkR m) buf) b).count c
    := by
  intro ms
  induction ms with
  | nil => intro b; simp
  | cons m ms ih =>
    intro b
    rw [List.foldl_cons]
    exact le_trans (count_pyReplace1_mono (h m) b) (ih _)

theorem fStage_count_mono {c : Char} (hf : c ≠ 'f') (b : List Char) :
    b.count c ≤ (fStage b).count c := by
  unfold fStage
  exact foldl_pyReplace1_mono (fun m => 'f' :: m) (fun m => m ++ [iMark])
    (fun m => by
      simp only [List.count_cons, List.count_append, List.count_nil,
        beq_iff_eq]
      rw [if_neg (Ne.symm hf)]
      omega)
    (fMatches b) b

theorem faStage_count_mono {c : Char} (hf : c ≠ 'f') (ha : c ≠ 'a')
    (b : List Char) : b.count c ≤ (faStage b).count c := by
  unfold faStage
  exact foldl_pyReplace1_mono (fun m => 'f' :: 'a' :: m)
    (fun m => m ++ [iMark, anusvara])
    (fun m => by
      simp only [List.count_cons, List.count_append, List.count_nil,
        beq_iff_eq]
      rw [if_neg (Ne.symm hf), if_neg (Ne.symm ha)]
      omega)
    (faMatches b) b

theorem iStage_count_mono {c : Char} (b : List Char) :
    b.count c ≤ (iStage b).count c := by
  unfold iStage
  exact foldl_pyReplace1_mono (fun m => iMark :: virama :: m)
    (fun m => virama :: (m ++ [iMark]))
    (fun m => by
      simp only [List.count_cons, List.count_append, List.count_nil,
        beq_iff_eq]
      omega)
    (iMatches b) b

theorem rephStage_count_mono {c : Char} (hZ : c ≠ 'Z')
    (vowelsU : List Char) :
    ∀ (ms : List (List Char)) (b out : List Char),
      List.foldlM (rephStep vowelsU) b ms = some out →
      b.count c ≤ out.count c := by
  intro ms
  induction ms with
  | nil =>
    intro b out h
    cases h
    exact le_refl _
  | cons m ms ih =>
    intro b out h
    rw [List.foldlM_cons] at h
    rcases hs : rephStep vowelsU b m with _ | b'
    · rw [hs] at h
      cases h
    · rw [hs] at h
      have h' : List.foldlM (rephStep vowelsU) b' ms = some out := h
      refine le_trans ?_ (ih b' out h')
      have hrep : ∀ m' : List Char,
          b.count c ≤
            (pyReplace1 (m' ++ ['Z']) (raChar :: virama :: m') b).count c :=
        fun m' => count_pyReplace1_mono (by
          simp only [List.count_cons, List.count_append, List.count_nil,
            beq_iff_eq]
          rw [if_neg (Ne.symm hZ)]
          omega) b
      unfold rephStep at hs
      rcases hf : pyFind (m ++ ['Z']) b with _ | i
      · rw [hf] at hs
        cases hs
        exact hrep m
      · rw [hf] at hs
        have hs2 : Option.map
            (fun m' => pyReplace1 (m' ++ ['Z']) (raChar :: virama :: m') b)
            (rephWalk b vowelsU i m) = some b' := hs
        rcases hw : rephWalk b vowelsU i m with _ | m'
        · rw [hw] at hs2
          cases hs2
        · rw [hw] at hs2
          cases hs2
          exact hrep m'

theorem main_fold_count_mono {c : Char} :
    ∀ (L : List (List Char × List Char)),
      (∀ p ∈ L, (p.1).count c ≤ (p.2).count c) →
      ∀ b : List Char,
        b.count c ≤
          (L.foldl (fun b p => pyReplace p.1 p.2 b) b).count c := by
  intro L
  induction L with
  | nil => intro _ b; simp
  | cons p L ih =>
    intro h b
    rw [List.foldl_cons]
    exact le_trans
      (count_pyReplace_mono (h p (List.mem_cons_self p L)) b)
      (ih (fun q hq => h q (List.mem_cons_of_mem p hq)) _)

theorem unat_fold_count_mono {c : Char} (hsp : c ≠ ' ')
    (hvir : c ≠ virama) :
    ∀ (us : List Char) (b : List Char),
      b.count c ≤
        (us.foldl
          (fun b m =>
            pyReplace [virama, m] [m, ',']
              (pyReplace [',', m] [m, ',']
                (pyReplace [' ', m] [m] b)))
          b).count c := by
  intro us
  induction us with
  | nil => intro b; simp
  | cons m us ih =>
    intro b
    rw [List.foldl_cons]
    refine le_trans ?_ (ih _)
    have s1 : b.count c ≤ (pyReplace [' ', m] [m] b).count c :=
      count_pyReplace_mono (by
        simp only [List.count_cons, List.count_nil, beq_iff_eq]
        rw [if_neg (Ne.symm hsp)]
        omega) b
    have s2 : (pyReplace [' ', m] [m] b).count c ≤
        (pyReplace [',', m] [m, ',']
          (pyReplace [' ', m] [m] b)).count c :=
      count_pyReplace_mono (by
        simp only [List.count_cons, List.count_nil, beq_iff_eq]
        omega) _
    have s3 : (pyReplace [',', m] [m, ',']
          (pyReplace [' ', m] [m] b)).count c ≤
        (pyReplace [virama, m] [m, ',']
          (pyReplace [',', m] [m, ',']
            (pyReplace [' ', m] [m] b))).count c :=
      count_pyReplace_mono (by
        simp only [List.count_cons, List.count_nil, beq_iff_eq]
        rw [if_neg (Ne.symm hvir)]
        omega) _
    exact le_trans s1 (le_trans s2 s3)

theorem dashIdxs_eq_nil {t : List Char} (ha : 'a' ∉ t) (hb : 'b' ∉ t) :
    dashIdxs t = [] := by
  unfold dashIdxs
  rw [List.filter_eq_nil]
  intro i _
  simp only [decide_eq_true_eq]
  rintro (h | h)
  · exact ha (List.get?_mem h)
  · exact hb (List.get?_mem h)

/-- C3 amended: on inputs consisting only of Devanagari-block
characters (and a glyph table whose legacy sides are, per the spec,
Latin/extended-ASCII sequences with no Devanagari character), the
forward converter never reduces the count of any Devanagari character
other than the virama.  The virama exclusion is forced by the
counterexample: the cleanup passes deliberately delete viramas. -/
theorem nonvirama_dev_count_monotone
    (MAIN : List (List Char × List Char))
    (consK unatK vowelsU unatU : List Char)
    (hM : ∀ p ∈ MAIN, ∀ x ∈ p.1, isDev x = false)
    (t : List Char) (ht : ∀ x ∈ t, isDev x = true)
    (out : List Char)
    (hconv : krutidev_to_unicode MAIN consK unatK vowelsU unatU t =
      some out)
    (c : Char) (hc : isDev c = true) (hvir : c ≠ virama) :
    t.count c ≤ out.count c := by
  have hne : ∀ d : Char, isDev d = false → c ≠ d := by
    intro d hd he
    rw [he, hd] at hc
    cases hc
  have hnm : ∀ d : Char, isDev d = false → d ∉ t := by
    intro d hd hmem
    rw [ht d hmem] at hd
    cases hd
  have hsp : c ≠ ' ' := hne ' ' (by decide)
  have hZc : c ≠ 'Z' := hne 'Z' (by decide)
  have hfc : c ≠ 'f' := hne 'f' (by decide)
  have hacc : c ≠ 'a' := hne 'a' (by decide)
  have hws : isPyWs c = false := by
    cases hB : isPyWs c
    · rfl
    · exfalso
      have hd : c = ' ' ∨ c = '\t' ∨ c = '\n' ∨ c = '\r' ∨
          c = Char.ofNat 0x0b ∨ c = Char.ofNat 0x0c ∨
          c = Char.ofNat 0x1c ∨ c = Char.ofNat 0x1d ∨
          c = Char.ofNat 0x1e ∨ c = Char.ofNat 0x1f ∨
          c = Char.ofNat 0x85 ∨ c = Char.ofNat 0xa0 := by
        simpa [isPyWs] using hB
      rcases hd with rfl|rfl|rfl|rfl|rfl|rfl|rfl|rfl|rfl|rfl|rfl|rfl <;>
        exact absurd hc (by decide)
  have e0 : pyReplace [' ', chAA] [chAA] t = t :=
    pyReplace_no_occ (x := ' ') (by simp) (hnm ' ' (by decide))
  have e1 : pyReplace [' ', '~', 'j'] ['~', 'j'] t = t :=
    pyReplace_no_occ (x := ' ') (by simp) (hnm ' ' (by decide))
  have e2 : pyReplace [' ', 'z'] ['z'] t = t :=
    pyReplace_no_occ (x := ' ') (by simp) (hnm ' ' (by decide))
  have hdash : dashStage consK unatK t = some t := by
    unfold dashStage
    rw [dashIdxs_eq_nil (hnm 'a' (by decide)) (hnm 'b' (by decide))]
    rfl
  simp only [krutidev_to_unicode] at hconv
  rw [e0, e1, e2, hdash, Option.some_bind] at hconv
  rcases Option.map_eq_some'.mp hconv with ⟨t15, hreph, hout⟩
  rw [← hout, count_pyStrip hws]
  refine le_trans ?_ (count_pyReplace_mono (by
    simp only [List.count_cons, List.count_nil, beq_iff_eq]
    rw [if_neg (Ne.symm hvir)]
    try omega) _)
  refine le_trans ?_ (count_pyReplace_mono (by
    simp only [List.count_cons, List.count_nil, beq_iff_eq]
    rw [if_neg (Ne.symm hvir)]
    try omega) _)
  refine le_trans ?_ (count_pyReplace_mono (by
    simp only [List.count_cons, List.count_nil, beq_iff_eq]
    rw [if_neg (Ne.symm hvir)]
    try omega) _)
  refine le_trans ?_ (count_pyReplace_mono (by
    simp only [List.count_cons, List.count_nil, beq_iff_eq]
    rw [if_neg (Ne.symm hvir)]
    try omega) _)
  refine le_trans ?_ (unat_fold_count_mono hsp hvir unatU _)
  unfold rephStage at hreph
  refine le_trans ?_ (rephStage_count_mono hZc vowelsU _ _ _ hreph)
  refine le_trans ?_ (count_pyReplace_mono (by
    simp only [List.count_cons, List.count_nil, beq_iff_eq]
    rw [if_neg (Ne.symm hvir), if_neg (Ne.symm hZc)]
    try omega) _)
  refine le_trans ?_ (iStage_count_mono _)
  refine le_trans ?_ (count_pyReplace_mono (by
    simp only [List.count_cons, List.count_nil, beq_iff_eq]
    rw [if_neg (Ne.symm (hne chCA (by decide)))]
    omega) _)
  refine le_trans ?_ (faStage_count_mono hfc hacc _)
  refine le_trans ?_ (count_pyReplace_mono (by
    simp only [List.count_cons, List.count_nil, beq_iff_eq]
    rw [if_neg (Ne.symm (hne chC9 (by decide)))]
    omega) _)
  refine le_trans ?_ (count_pyReplace_mono (by
    simp only [List.count_cons, List.count_nil, beq_iff_eq]
    rw [if_neg (Ne.symm (hne chAF (by decide)))]
    omega) _)
  refine le_trans ?_ (count_pyReplace_mono (by
    simp only [List.count_cons, List.count_nil, beq_iff_eq]
    rw [if_neg (Ne.symm (hne chC7 (by decide)))]
    omega) _)
  refine le_trans ?_ (fStage_count_mono hfc _)
  refine le_trans ?_ (count_pyReplace_mono (by
    simp only [List.count_cons, List.count_nil, beq_iff_eq]
    rw [if_neg (Ne.symm (hne chC6 (by decide)))]
    omega) _)
  refine le_trans ?_ (count_pyReplace_mono (by
    simp only [List.count_cons, List.count_nil, beq_iff_eq]
    rw [if_neg (Ne.symm (hne chB1 (by decide)))]
    omega) _)
  exact main_fold_count_mono MAIN
    (fun p hp => by
      have hz : (p.1).count c = 0 := List.count_eq_zero.mpr
        (fun hmem => by
          have hd := hM p hp c hmem
          rw [hd] at hc
          cases hc)
      rw [hz]
      exact Nat.zero_le _)
    t

/-- Witness for the amended C3: on the input KA + AA (all Devanagari),
the converter is the identity and the KA count is preserved. -/
theorem nonvirama_dev_count_monotone_witness :
    ([Char.ofNat 0x915, Char.ofNat 0x93E] : List Char).count
        (Char.ofNat 0x915) ≤
      ([Char.ofNat 0x915, Char.ofNat 0x93E] : List Char).count
        (Char.ofNat 0x915) :=
  nonvirama_dev_count_monotone MAIN_model CONSONANTS_krutidev_model
    UNATTACHED_krutidev_model VOWELS_unicode_model
    UNATTACHED_unicode_model (by decide)
    [Char.ofNat 0x915, Char.ofNat 0x93E] (by decide)
    [Char.ofNat 0x915, Char.ofNat 0x93E] (by decide)
    (Char.ofNat 0x915) (by decide) (by decide)

theorem mem_map_fst_iff {l : List (List Char × List Char)}
    {u : List Char} :
    u ∈ l.map Prod.fst ↔ ∃ k, (u, k) ∈ l := by
  rw [List.mem_map]
  constructor
  · rintro ⟨⟨u', k⟩, hm, rfl⟩
    exact ⟨k, hm⟩
  · rintro ⟨k, hm⟩
    exact ⟨(u, k), hm, rfl⟩

theorem insertLenDesc_perm (x : List Char × List Char) :
    ∀ l, List.Perm (insertLenDesc x l) (x :: l) := by
  intro l
  induction l with
  | nil => exact List.Perm.refl _
  | cons y ys ih =>
    rw [insertLenDesc]
    by_cases h : y.1.length ≤ x.1.length
    · rw [if_pos h]
    · rw [if_neg h]
      exact List.Perm.trans (List.Perm.cons y ih) (List.Perm.swap x y ys)

theorem sortLenDesc_perm : ∀ l, List.Perm (sortLenDesc l) l := by
  intro l
  induction l with
  | nil => exact List.Perm.refl _
  | cons x xs ih =>
    unfold sortLenDesc at ih ⊢
    rw [List.foldr_cons]
    exact List.Perm.trans (insertLenDesc_perm x _) (List.Perm.cons x ih)

theorem insertLenDesc_pairwise (x : List Char × List Char) :
    ∀ l, List.Pairwise
        (fun a b : List Char × List Char => (b.1).length ≤ (a.1).length)
        l →
      List.Pairwise
        (fun a b : List Char × List Char => (b.1).length ≤ (a.1).length)
        (insertLenDesc x l) := by
  intro l
  induction l with
  | nil => intro _; simp [insertLenDesc]
  | cons y ys ih =>
    intro hpw
    rcases List.pairwise_cons.mp hpw with ⟨hy, hys⟩
    rw [insertLenDesc]
    by_cases h : y.1.length ≤ x.1.length
    · rw [if_pos h]
      refine List.pairwise_cons.mpr ⟨?_, hpw⟩
      intro z hz
      rcases List.mem_cons.mp hz with rfl | hz'
      · exact h
      · exact le_trans (hy z hz') h
    · rw [if_neg h]
      refine List.pairwise_cons.mpr ⟨?_, ih hys⟩
      intro z hz
      have hz2 := (insertLenDesc_perm x ys).mem_iff.mp hz
      rcases List.mem_cons.mp hz2 with rfl | hz'
      · omega
      · exact hy z hz'

theorem sortLenDesc_pairwise : ∀ l,
    List.Pairwise
      (fun a b : List Char × List Char => (b.1).length ≤ (a.1).length)
      (sortLenDesc l) := by
  intro l
  induction l with
  | nil => simp [sortLenDesc]
  | cons x xs ih =>
    unfold sortLenDesc at ih ⊢
    rw [List.foldr_cons]
    exact insertLenDesc_pairwise x _ ih

theorem seenFold_keys_nodup :
    ∀ (L : List (List Char × List Char))
      (acc : List (List Char × List Char)),
      (acc.map Prod.fst).Nodup →
      ((L.foldl
          (fun acc p =>
            if p.2.any isDev ∧ ∀ q ∈ acc, q.1 ≠ p.2 then
              acc ++ [(p.2, p.1)]
            else acc)
          acc).map Prod.fst).Nodup := by
  intro L
  induction L with
  | nil => intro acc h; exact h
  | cons p L ih =>
    intro acc h
    rw [List.foldl_cons]
    by_cases hcond : p.2.any isDev ∧ ∀ q ∈ acc, q.1 ≠ p.2
    · rw [if_pos hcond]
      refine ih _ ?_
      rw [List.map_append]
      rw [List.nodup_append]
      refine ⟨h, by simp, ?_⟩
      intro u hu hu2
      have hu3 : u = p.2 := by simpa using hu2
      rcases mem_map_fst_iff.mp hu with ⟨k, hk⟩
      exact hcond.2 (u, k) hk hu3
    · rw [if_neg hcond]
      exact ih _ h

theorem seenFold_mem_iff :
    ∀ (L : List (List Char × List Char))
      (acc : List (List Char × List Char)) (u : List Char),
      u ∈ (L.foldl
          (fun acc p =>
            if p.2.any isDev ∧ ∀ q ∈ acc, q.1 ≠ p.2 then
              acc ++ [(p.2, p.1)]
            else acc)
          acc).map Prod.fst ↔
        (u ∈ acc.map Prod.fst ∨
          ∃ k, (k, u) ∈ L ∧ u.any isDev = true) := by
  intro L
  induction L with
  | nil =>
    intro acc u
    simp
  | cons p L ih =>
    intro acc u
    rw [List.foldl_cons]
    by_cases hcond : p.2.any isDev ∧ ∀ q ∈ acc, q.1 ≠ p.2
    · rw [if_pos hcond]
      rw [ih]
      constructor
      · rintro (hm | ⟨k, hk, hdev⟩)
        · rw [List.map_append] at hm
          rcases List.mem_append.mp hm with hm | hm
          · exact Or.inl hm
          · have hu : u = p.2 := by simpa using hm
            subst hu
            exact Or.inr ⟨p.1, List.mem_cons_self _ _, hcond.1⟩
        · exact Or.inr ⟨k, List.mem_cons_of_mem _ hk, hdev⟩
      · rintro (hm | ⟨k, hk, hdev⟩)
        · exact Or.inl (by
            rw [List.map_append]
            exact List.mem_append_left _ hm)
        · rcases List.mem_cons.mp hk with heq | hk'
          · have : u = p.2 := congrArg Prod.snd heq
            subst this
            exact Or.inl (by
              rw [List.map_append]
              exact List.mem_append_right _ (by simp))
          · exact Or.inr ⟨k, hk', hdev⟩
    · rw [if_neg hcond]
      rw [ih]
      constructor
      · rintro (hm | ⟨k, hk, hdev⟩)
        · exact Or.inl hm
        · exact Or.inr ⟨k, List.mem_cons_of_mem _ hk, hdev⟩
      · rintro (hm | ⟨k, hk, hdev⟩)
        · exact Or.inl hm
        · rcases List.mem_cons.mp hk with heq | hk'
          · have hu : u = p.2 := congrArg Prod.snd heq
            subst hu
            rcases not_and_or.mp hcond with hnd | hnf
            · exact absurd hdev hnd
            · push_neg at hnf
              rcases hnf with ⟨q, hq, hq2⟩
              exact Or.inl (mem_map_fst_iff.mpr ⟨q.2, by
                rw [← hq2]
                exact hq⟩)
          · exact Or.inr ⟨k, hk', hdev⟩

theorem seenFold_earliest :
    ∀ (L acc : List (List Char × List Char))
      (e : List Char × List Char),
      e ∈ L.foldl
          (fun acc p =>
            if p.2.any isDev ∧ ∀ q ∈ acc, q.1 ≠ p.2 then
              acc ++ [(p.2, p.1)]
            else acc)
          acc →
      e ∈ acc ∨
        (e.1.any isDev = true ∧ e.1 ∉ acc.map Prod.fst ∧
          L.find? (fun p => p.2 = e.1) = some (e.2, e.1)) := by
  intro L
  induction L with
  | nil =>
    intro acc e hm
    exact Or.inl hm
  | cons p L ih =>
    intro acc e hm
    rw [List.foldl_cons] at hm
    by_cases hcond : p.2.any isDev ∧ ∀ q ∈ acc, q.1 ≠ p.2
    · rw [if_pos hcond] at hm
      rcases ih _ e hm with hacc | ⟨hdev, hnk, hfind⟩
      · rcases List.mem_append.mp hacc with hacc' | hsing
        · exact Or.inl hacc'
        · have he : e = (p.2, p.1) := by simpa using hsing
          subst he
          refine Or.inr ⟨hcond.1, ?_, ?_⟩
          · intro hk
            rcases mem_map_fst_iff.mp hk with ⟨k', hk'⟩
            exact hcond.2 (p.2, k') hk' rfl
          · rw [List.find?_cons_of_pos _ (by simp)]
      · have hnk2 : e.1 ∉ acc.map Prod.fst := by
          intro hk
          refine hnk ?_
          rw [List.map_append]
          exact List.mem_append_left _ hk
        have hne : ¬ (p.2 = e.1) := by
          intro he
          refine hnk ?_
          rw [List.map_append]
          refine List.mem_append_right _ (by simp [he])
        refine Or.inr ⟨hdev, hnk2, ?_⟩
        rw [List.find?_cons_of_neg _ (by simpa using hne)]
        exact hfind
    · rw [if_neg hcond] at hm
      rcases ih _ e hm with hacc | ⟨hdev, hnk, hfind⟩
      · exact Or.inl hacc
      · have hne : ¬ (p.2 = e.1) := by
          intro he
          rcases not_and_or.mp hcond with hnd | hnf
          · rw [he] at hnd
            exact hnd hdev
          · push_neg at hnf
            rcases hnf with ⟨q, hq, hq2⟩
            exact hnk (mem_map_fst_iff.mpr ⟨q.2, by
              rw [← he, ← hq2]
              exact hq⟩)
        refine Or.inr ⟨hdev, hnk, ?_⟩
        rw [List.find?_cons_of_neg _ (by simpa using hne)]
        exact hfind

/-- C7: the reverse table built by `_build_unicode_to_krutidev_map`
has pairwise-distinct Unicode keys; a Unicode string is a key exactly
when it is the Unicode side of some `MAIN` rule containing a Devanagari
character; the stored legacy sequence for a key is the one of the
earliest rule in `MAIN` whose Unicode side equals that key; and the
entries are sorted by Unicode-sequence length in descending order. -/
theorem reverse_map_build_spec (MAIN : List (List Char × List Char)) :
    ((_build_unicode_to_krutidev_map MAIN).map Prod.fst).Nodup ∧
    (∀ u : List Char,
      (∃ k, (u, k) ∈ _build_unicode_to_krutidev_map MAIN) ↔
        (∃ k, (k, u) ∈ MAIN ∧ u.any isDev = true)) ∧
    (∀ u k, (u, k) ∈ _build_unicode_to_krutidev_map MAIN →
      MAIN.find? (fun p => p.2 = u) = some (k, u)) ∧
    List.Pairwise
      (fun a b : List Char × List Char => (b.1).length ≤ (a.1).length)
      (_build_unicode_to_krutidev_map MAIN) := by
  have hperm : List.Perm (_build_unicode_to_krutidev_map MAIN)
      (seenFold MAIN) := sortLenDesc_perm (seenFold MAIN)
  refine ⟨?_, ?_, ?_, sortLenDesc_pairwise (seenFold MAIN)⟩
  · have h1 : ((seenFold MAIN).map Prod.fst).Nodup := by
      unfold seenFold
      exact seenFold_keys_nodup MAIN [] (by simp)
    exact ((hperm.map Prod.fst).symm).nodup h1
  · intro u
    rw [← mem_map_fst_iff, (hperm.map Prod.fst).mem_iff]
    unfold seenFold
    rw [seenFold_mem_iff MAIN [] u]
    simp
  · intro u k hm
    have hm' : (u, k) ∈ seenFold MAIN := hperm.mem_iff.mp hm
    unfold seenFold at hm'
    rcases seenFold_earliest MAIN [] (u, k) hm' with habs | ⟨_, _, hfind⟩
    · cases habs
    · exact hfind

/-- Witness for C7 at the modelled table: `d` is the earliest legacy
producer of KA (the later duplicate rule `D -> KA` is discarded), and
the built table has pairwise-distinct keys. -/
theorem reverse_map_build_spec_witness :
    MAIN_model.find? (fun p => p.2 = [Char.ofNat 0x915]) =
      some (['d'], [Char.ofNat 0x915]) ∧
    ((_build_unicode_to_krutidev_map MAIN_model).map Prod.fst).Nodup :=
  ⟨(reverse_map_build_spec MAIN_model).2.2.1 [Char.ofNat 0x915] ['d']
      (by decide),
    (reverse_map_build_spec MAIN_model).1⟩
